import Mathlib

/-!
Shallow embedding of the ear-training app core (note-notation parser,
round state machine, playback timing) and proofs about it.
The parser and state machine are embedded from `App.tsx`
(`tokenizeNotes`, `normalizeNote`, `parseSequences`, `pickRandom`,
`startRound`, `replay`, `submit`) and the playback timing from
`audio.ts` (`playSequence`).
-/

namespace EarTraining

/-- The apostrophe character, the ABC octave-up modifier. -/
def apostChar : Char := Char.ofNat 39

/-- Characters matched by the JavaScript whitespace class used in the
source (in the regex replace stripping whitespace and in trim):
space, tab, LF, VT, FF, CR, NBSP, BOM. -/
def isSpaceChar (c : Char) : Bool :=
  c = ' ' || c = Char.ofNat 9 || c = Char.ofNat 10 || c = Char.ofNat 11 ||
  c = Char.ofNat 12 || c = Char.ofNat 13 || c = Char.ofNat 160 ||
  c = Char.ofNat 65279

/-- The character class of the source regexes: letters A-G, a-g. -/
def noteLetters : List Char :=
  ['A', 'B', 'C', 'D', 'E', 'F', 'G', 'a', 'b', 'c', 'd', 'e', 'f', 'g']

/-- Membership in the regex class of the tokenizer and normalizer. -/
def isNoteLetter (c : Char) : Bool := noteLetters.contains c

/-- The regex digit class of the source (ASCII digits). -/
def isDigitChar (c : Char) : Bool :=
  ['0', '1', '2', '3', '4', '5', '6', '7', '8', '9'].contains c

/-- The ABC octave-modifier characters: comma and apostrophe. -/
def isModifierChar (c : Char) : Bool := c = ',' || c = apostChar

/-- JavaScript's toUpperCase on the single characters the code feeds it. -/
def upperChar (c : Char) : Char :=
  if 97 ≤ c.toNat && c.toNat ≤ 122 then Char.ofNat (c.toNat - 32) else c

/-- JavaScript's toLowerCase on the single characters the code feeds it. -/
def lowerChar (c : Char) : Char :=
  if 65 ≤ c.toNat && c.toNat ≤ 90 then Char.ofNat (c.toNat + 32) else c

/-- The body of `input.replace` removing every whitespace character. -/
def stripSpaces (s : String) : String :=
  String.mk (s.data.filter (fun c => !isSpaceChar c))

/-- One pass of the global tokenizing regex match: at a letter, prefer a
single digit, otherwise greedily take the run of modifier characters;
at any other character, advance by one (the regex engine skips it).
The fuel argument makes the scan structurally recursive; the wrapper
passes the character count, which always suffices. -/
def tokenizeFuel : Nat → List Char → List (List Char)
  | 0, _ => []
  | _ + 1, [] => []
  | fuel + 1, c :: cs =>
    if isNoteLetter c then
      match cs with
      | [] => [[c]]
      | d :: rest =>
        if isDigitChar d then [c, d] :: tokenizeFuel fuel rest
        else
          (c :: cs.takeWhile isModifierChar) ::
            tokenizeFuel fuel (cs.dropWhile isModifierChar)
    else tokenizeFuel fuel cs

/-- Embedding of `tokenizeNotes`: strip whitespace, then collect every
match of the regex scanning for a letter A-G or a-g followed by either
one digit or a run of modifiers. -/
def tokenizeNotes (input : String) : List String :=
  (tokenizeFuel (stripSpaces input).data.length (stripSpaces input).data).map
    (fun cs => String.mk cs)

/-- The modifier fold of `normalizeNote`: starting from the base octave
(5 for a lowercase letter, 4 for uppercase), each comma decrements and
each apostrophe increments, left to right. -/
def abcOctave (l : Char) (mods : List Char) : Int :=
  mods.foldl
    (fun o c => if c = ',' then o - 1 else if c = apostChar then o + 1 else o)
    (if lowerChar l = l then 5 else 4)

/-- The ABC branch of `normalizeNote`: the whole modifier run must match
the class, the folded octave is clamped to [0,7] and rendered as the
single digit after the uppercased letter. -/
def abcNormalize (l : Char) (mods : List Char) : Option String :=
  if mods.all isModifierChar then
    some (String.mk [upperChar l,
      Char.ofNat (48 + (max 0 (min 7 (abcOctave l mods))).toNat)])
  else none

/-- Embedding of `normalizeNote`: first try the explicit letter+digit
shape (octave digit kept verbatim), otherwise the ABC shape
(letter plus a possibly-empty modifier run), otherwise fail. -/
def normalizeNote (token : String) : Option String :=
  match token.data with
  | [] => none
  | l :: rest =>
    if isNoteLetter l then
      match rest with
      | [d] =>
        if isDigitChar d then some (String.mk [upperChar l, d])
        else abcNormalize l [d]
      | _ => abcNormalize l rest
    else none

/-- The NOTE_TO_DEGREE table with the `?? 0` fallback folded in. -/
def noteToDegree (c : Char) : Nat :=
  if c = 'C' then 1 else if c = 'D' then 2 else if c = 'E' then 3
  else if c = 'F' then 4 else if c = 'G' then 5 else if c = 'A' then 6
  else if c = 'B' then 7 else 0

/-- The Sequence record of types.ts. -/
structure Sequence where
  notes : List String
  degrees : List Nat
deriving DecidableEq

/-- The per-segment token loop of `parseSequences`: normalize each token
in order, pushing the note and its degree; a failed normalization
returns the empty record for the whole segment (the early return). -/
def buildSeqGo : List String → List String → List Nat → Sequence
  | [], ns, ds => ⟨ns, ds⟩
  | tok :: rest, ns, ds =>
    match normalizeNote tok with
    | none => ⟨[], []⟩
    | some n => buildSeqGo rest (ns ++ [n]) (ds ++ [noteToDegree (n.data.headD ' ')])

/-- The candidate Sequence built from one segment's token list. -/
def buildSeq (toks : List String) : Sequence := buildSeqGo toks [] []

/-- JavaScript split on a semicolon separator. -/
def splitSemis : List Char → List (List Char)
  | [] => [[]]
  | c :: cs =>
    let r := splitSemis cs
    if c = ';' then [] :: r
    else
      match r with
      | [] => [[c]]
      | h :: t => (c :: h) :: t

/-- JavaScript trim: drop leading and trailing whitespace. -/
def trimString (s : String) : String :=
  String.mk (((s.data.dropWhile isSpaceChar).reverse.dropWhile isSpaceChar).reverse)

/-- The segment pipeline of `parseSequences`: split on semicolons, trim
each piece, drop empty pieces. -/
def parseSegments (param : String) : List String :=
  ((splitSemis param.data).map (fun cs => trimString (String.mk cs))).filter
    (fun s => s != "")

/-- Embedding of `parseSequences`: build one candidate Sequence per
segment and keep those with at least one note and all degrees positive. -/
def parseSequences (param : String) : List Sequence :=
  ((parseSegments param).map (fun seqStr => buildSeq (tokenizeNotes seqStr))).filter
    (fun seq => decide (0 < seq.notes.length) && seq.degrees.all (fun d => decide (0 < d)))

/-- The GameState union of types.ts. -/
inductive GameState where
  | idle
  | playing
  | answering
  | result
deriving DecidableEq

/-- The component state touched by the round logic: the parsed
collection and the useState cells of App. -/
structure GameSt where
  sequences : List Sequence
  current : Option Sequence
  userAnswer : List Nat
  gameState : GameState
  isCorrect : Option Bool
  showAnswer : Bool
  isPlaying : Bool
deriving DecidableEq

/-- Embedding of `pickRandom`: with at most one element return the first
element (none when empty); otherwise index into the list filtered
against the excluded value, where `k` stands for the evaluated
`Math.floor(Math.random() * filtered.length)` (out-of-range `k` gives
none, JavaScript's undefined). -/
def pickRandom {α : Type} [DecidableEq α] (arr : List α) (exclude : Option α)
    (k : Nat) : Option α :=
  if arr.length ≤ 1 then arr.head?
  else (arr.filter (fun item => !(some item == exclude))).get? k

/-- One run-to-completion execution of `startRound`. The source reads
`sequences` and `current` from a useCallback closure whose dependency
list is `[sequences]`, so both are passed explicitly as the captured
values. Returns the state after the awaited playback finishes, paired
with the note lists handed to `playSequence`; the `none` selection
branch is unreachable for an in-range `k`. -/
def startRound (capturedSequences : List Sequence)
    (capturedCurrent : Option Sequence) (k : Nat) (s : GameSt) :
    GameSt × List (List String) :=
  if capturedSequences.length = 0 then (s, [])
  else
    match pickRandom capturedSequences capturedCurrent k with
    | none => (s, [])
    | some seq =>
      ({ s with current := some seq, userAnswer := [], isCorrect := none,
                showAnswer := false, gameState := GameState.answering,
                isPlaying := false },
       [seq.notes])

/-- One run-to-completion execution of `replay` (its useCallback
dependency list names everything it reads, so it is evaluated on the
live state): no current sequence or an in-flight playback is a no-op,
otherwise the current sequence's notes are handed to `playSequence`
and isPlaying ends false again. -/
def replay (s : GameSt) : GameSt × List (List String) :=
  match s.current with
  | none => (s, [])
  | some cur =>
    if s.isPlaying then (s, [])
    else ({ s with isPlaying := false }, [cur.notes])

/-- The indexed `every` callback of `submit`: element `d` at index `i`
must satisfy `d === target[i]` (an out-of-range index reads undefined
and fails). -/
def submitEvery (target : List Nat) : Nat → List Nat → Bool
  | _, [] => true
  | i, d :: rest => (target.get? i == some d) && submitEvery target (i + 1) rest

/-- The grading expression of `submit`: equal lengths and the indexed
`every` over the answer. -/
def gradeAnswer (answer target : List Nat) : Bool :=
  (answer.length == target.length) && submitEvery target 0 answer

/-- Embedding of `submit`: no-op without a current sequence or with an
empty answer, otherwise set isCorrect from the grading expression and
move to the result state. -/
def submit (s : GameSt) : GameSt :=
  match s.current with
  | none => s
  | some cur =>
    if s.userAnswer.length = 0 then s
    else { s with isCorrect := some (gradeAnswer s.userAnswer cur.degrees),
                  gameState := GameState.result }

/-- The fixed per-note audible duration of `playSequence` (0.5 s). -/
def noteDuration : ℚ := 1 / 2

/-- The fixed inter-note gap of `playSequence` (0.1 s). -/
def gap : ℚ := 1 / 10

/-- The offsets, in seconds relative to the `playSequence` call, at
which the loop schedules each note: startTime is currentTime + 0.05
and note `i` starts at startTime + i * (noteDuration + gap). -/
def playOffsets (notes : List String) : List ℚ :=
  (List.range notes.length).map
    (fun i : Nat => 1 / 20 + (i : ℚ) * (noteDuration + gap))

/-- The totalDuration of `playSequence`, in seconds: the delay handed
to setTimeout (times 1000) before the returned promise resolves. -/
def totalDuration (notes : List String) : ℚ :=
  notes.length * (noteDuration + gap)

/-- Claim C1: parse applied to the raw input string "CFGc;C,EGc" returns
exactly two Sequences, in input order: the first with notes
["C4","F4","G4","C5"] and degrees [1,4,5,1], the second with notes
["C3","E4","G4","C5"] and degrees [1,3,5,1]. -/
theorem c1_parse_end_to_end :
    parseSequences "CFGc;C,EGc" =
      [⟨["C4", "F4", "G4", "C5"], [1, 4, 5, 1]⟩,
       ⟨["C3", "E4", "G4", "C5"], [1, 3, 5, 1]⟩] := by decide

/-- Claim C9: calling submit twice in a row with no intervening input
leaves the grading outcome unchanged after the first call: the second
call has no effect on the grading result or on the state. -/
theorem c9_submit_idempotent (s : GameSt) : submit (submit s) = submit s := by
  cases hc : s.current with
  | none => simp [submit, hc]
  | some cur =>
    by_cases ha : s.userAnswer.length = 0
    · simp [submit, hc, ha]
    · simp [submit, hc, ha]

/-- Claim C7: when a playback is already in flight, a replay request is
rejected as a no-op: no playback command is emitted, no error is
raised (the function is total), and the accumulated answer and the
game state are left unchanged. -/
theorem c7_replay_inflight_noop (s : GameSt) (h : s.isPlaying = true) :
    replay s = (s, []) ∧ (replay s).2 = [] ∧
    (replay s).1.userAnswer = s.userAnswer ∧
    (replay s).1.gameState = s.gameState := by
  have hmain : replay s = (s, []) := by
    cases hc : s.current with
    | none => simp [replay, hc]
    | some cur => simp [replay, hc, h]
  exact ⟨hmain, by rw [hmain], by rw [hmain], by rw [hmain]⟩

/-- Witness for C7: a concrete answering-phase state with a playback in
flight, where replay changes nothing and emits nothing. -/
theorem c7_replay_inflight_noop_witness :
    replay { sequences := [], current := some ⟨["C4"], [1]⟩, userAnswer := [1],
             gameState := GameState.answering, isCorrect := none,
             showAnswer := false, isPlaying := true } =
      ({ sequences := [], current := some ⟨["C4"], [1]⟩, userAnswer := [1],
         gameState := GameState.answering, isCorrect := none,
         showAnswer := false, isPlaying := true }, []) :=
  (c7_replay_inflight_noop _ rfl).1

/-- Claim C6 is a code bug: startRound's useCallback dependency list is
`[sequences]`, so the closure's `current` stays the initial null. With
the two sequences of "CFGc;C,EGc" and the first one just played,
advancing with the stale captured null re-selects the first sequence
(an immediate repeat, here at random index 0), whereas the exclusion
the call site intends (pickRandom with the live current) would have
returned the other sequence. -/
theorem c6_stale_current_allows_repeat :
    (startRound
        [⟨["C4", "F4", "G4", "C5"], [1, 4, 5, 1]⟩,
         ⟨["C3", "E4", "G4", "C5"], [1, 3, 5, 1]⟩]
        none 0
        { sequences :=
            [⟨["C4", "F4", "G4", "C5"], [1, 4, 5, 1]⟩,
             ⟨["C3", "E4", "G4", "C5"], [1, 3, 5, 1]⟩],
          current := some ⟨["C4", "F4", "G4", "C5"], [1, 4, 5, 1]⟩,
          userAnswer := [], gameState := GameState.result,
          isCorrect := some true, showAnswer := false,
          isPlaying := false }).1.current =
      some ⟨["C4", "F4", "G4", "C5"], [1, 4, 5, 1]⟩ ∧
    pickRandom
        ([⟨["C4", "F4", "G4", "C5"], [1, 4, 5, 1]⟩,
          ⟨["C3", "E4", "G4", "C5"], [1, 3, 5, 1]⟩] : List Sequence)
        (some ⟨["C4", "F4", "G4", "C5"], [1, 4, 5, 1]⟩) 0 =
      some ⟨["C3", "E4", "G4", "C5"], [1, 3, 5, 1]⟩ := by decide

/-- Claim C8: the delay playSequence waits before resolving equals the
note count times the fixed per-note slot (0.5 s duration plus 0.1 s
gap), and every internally scheduled note (each starting 0.05 s plus
its slot offset after the call) has finished sounding by that delay. -/
theorem c8_completion_delay (notes : List String) :
    totalDuration notes = notes.length * (1 / 2 + 1 / 10) ∧
    ∀ t ∈ playOffsets notes, t + noteDuration ≤ totalDuration notes := by
  constructor
  · rfl
  · intro t ht
    unfold playOffsets at ht
    obtain ⟨i, hi, rfl⟩ := List.mem_map.mp ht
    rw [List.mem_range] at hi
    have hi' : (i : ℚ) + 1 ≤ (notes.length : ℚ) := by exact_mod_cast hi
    unfold totalDuration noteDuration gap
    nlinarith [hi']

/-- Witness for C8: on the one-note list ["C4"], the first scheduled
note starts 0.05 s in and has finished by the 0.6 s completion delay. -/
theorem c8_completion_delay_witness :
    (1 / 20 : ℚ) + noteDuration ≤ totalDuration ["C4"] :=
  (c8_completion_delay ["C4"]).2 (1 / 20)
    (by simp [playOffsets, noteDuration, gap])

/-- The indexed every of submit reflected as a proposition: it holds
exactly when, within the answer's length, the target agrees with the
answer position by position (from the given starting index). -/
theorem submitEvery_eq_true_iff (target : List Nat) :
    ∀ (answer : List Nat) (i : Nat),
      submitEvery target i answer = true ↔
        ∀ j, j < answer.length → target.get? (i + j) = answer.get? j := by
  intro answer
  induction answer with
  | nil => intro i; simp [submitEvery]
  | cons d rest ih =>
    intro i
    simp only [submitEvery, Bool.and_eq_true, beq_iff_eq]
    constructor
    · rintro ⟨h0, hrest⟩ j hj
      cases j with
      | zero => simpa using h0
      | succ j =>
        have hj' : j < rest.length := by simpa using hj
        have := (ih (i + 1)).mp hrest j hj'
        have hidx : i + (j + 1) = i + 1 + j := by omega
        simpa [hidx] using this
    · intro h
      refine ⟨by simpa using h 0 (by simp), (ih (i + 1)).mpr ?_⟩
      intro j hj
      have := h (j + 1) (by simpa using Nat.succ_lt_succ hj)
      have hidx : i + (j + 1) = i + 1 + j := by omega
      simpa [hidx] using this

/-- The grading expression reflected as a proposition: the answer grades
correct exactly when it has the target's length and matches it
position by position. -/
theorem gradeAnswer_eq_true_iff (answer target : List Nat) :
    gradeAnswer answer target = true ↔
      (answer.length = target.length ∧
        ∀ i, i < answer.length → answer.get? i = target.get? i) := by
  simp only [gradeAnswer, Bool.and_eq_true, beq_iff_eq]
  rw [submitEvery_eq_true_iff]
  constructor
  · rintro ⟨hlen, hpt⟩
    exact ⟨hlen, fun i hi => ((by simpa using hpt i hi : target.get? i = answer.get? i)).symm⟩
  · rintro ⟨hlen, hpt⟩
    exact ⟨hlen, fun j hj => by simpa using (hpt j hj).symm⟩

/-- Claim C2: submit is a no-op when the accumulated answer is empty;
otherwise it grades the answer as correct if and only if the answer's
length equals the chosen sequence's degree list length and the two
lists are equal index-wise, sets the grading outcome accordingly, and
sets the state to result; in particular against target degrees
[1,4,5,1], answer [1,4,5,1] grades correct while [1,4,5] and
[1,4,5,2] grade incorrect. -/
theorem c2_submit_grades (s : GameSt) (cur : Sequence)
    (hc : s.current = some cur) :
    (s.userAnswer = [] → submit s = s) ∧
    (s.userAnswer ≠ [] →
      (submit s).gameState = GameState.result ∧
      ∃ b, (submit s).isCorrect = some b ∧
        (b = true ↔ (s.userAnswer.length = cur.degrees.length ∧
          ∀ i, i < s.userAnswer.length →
            s.userAnswer.get? i = cur.degrees.get? i))) ∧
    gradeAnswer [1, 4, 5, 1] [1, 4, 5, 1] = true ∧
    gradeAnswer [1, 4, 5] [1, 4, 5, 1] = false ∧
    gradeAnswer [1, 4, 5, 2] [1, 4, 5, 1] = false := by
  refine ⟨?_, ?_, by decide, by decide, by decide⟩
  · intro ha
    simp [submit, hc, ha]
  · intro ha
    have ha' : ¬ s.userAnswer.length = 0 := by
      simpa [List.length_eq_zero] using ha
    refine ⟨by simp [submit, hc, ha'], gradeAnswer s.userAnswer cur.degrees,
      by simp [submit, hc, ha'], ?_⟩
    exact gradeAnswer_eq_true_iff s.userAnswer cur.degrees

/-- Witness for C2: with a current sequence and an empty accumulated
answer, submit changes nothing. -/
theorem c2_submit_grades_witness :
    submit { sequences := [], current := some ⟨["C4"], [1, 4, 5, 1]⟩,
             userAnswer := [], gameState := GameState.answering,
             isCorrect := none, showAnswer := false, isPlaying := false } =
      { sequences := [], current := some ⟨["C4"], [1, 4, 5, 1]⟩,
        userAnswer := [], gameState := GameState.answering,
        isCorrect := none, showAnswer := false, isPlaying := false } :=
  (c2_submit_grades
    { sequences := [], current := some ⟨["C4"], [1, 4, 5, 1]⟩,
      userAnswer := [], gameState := GameState.answering,
      isCorrect := none, showAnswer := false, isPlaying := false }
    ⟨["C4"], [1, 4, 5, 1]⟩ rfl).1 rfl

/-- A modifier character is never a digit. -/
theorem modifier_not_digit (c : Char) (h : isModifierChar c = true) :
    isDigitChar c = false := by
  rcases (by simpa [isModifierChar] using h : c = ',' ∨ c = apostChar) with h' | h' <;>
    subst h' <;> decide

/-- The left-to-right modifier fold equals the base octave plus the
number of apostrophes minus the number of commas. -/
theorem abcOctave_count (l : Char) (mods : List Char) :
    abcOctave l mods = (if lowerChar l = l then (5 : Int) else 4)
      + mods.count apostChar - mods.count ',' := by
  unfold abcOctave
  generalize (if lowerChar l = l then (5 : Int) else 4) = b
  induction mods generalizing b with
  | nil => simp
  | cons c cs ih =>
    by_cases h1 : c = ','
    · subst h1
      have ha : List.count apostChar (',' :: cs) = List.count apostChar cs := by
        rw [List.count_cons]
        simp
        decide
      have hc : List.count ',' (',' :: cs) = List.count ',' cs + 1 := by
        rw [List.count_cons]
        simp
      simp only [List.foldl_cons, if_pos rfl, ha, hc, ih]
      push_cast
      ring
    · by_cases h2 : c = apostChar
      · subst h2
        have ha : List.count apostChar (apostChar :: cs)
            = List.count apostChar cs + 1 := by
          rw [List.count_cons]
          simp
        have hc : List.count ',' (apostChar :: cs) = List.count ',' cs := by
          rw [List.count_cons]
          simp
          decide
        simp only [List.foldl_cons, if_neg (by decide : ¬ (apostChar = ',')),
          if_pos rfl, ha, hc, ih]
        push_cast
        ring
      · have ha : List.count apostChar (c :: cs) = List.count apostChar cs := by
          rw [List.count_cons]
          simp
          exact h2
        have hc : List.count ',' (c :: cs) = List.count ',' cs := by
          rw [List.count_cons]
          simp
          exact h1
        simp only [List.foldl_cons, if_neg h1, if_neg h2, ha, hc, ih]

/-- Evaluation of normalizeNote on a letter followed by a modifier run:
the ABC branch applies and yields the uppercased letter with the
clamped folded octave rendered as a digit. -/
theorem normalizeNote_abc_eq (l : Char) (mods : List Char)
    (hl : isNoteLetter l = true) (hm : mods.all isModifierChar = true) :
    normalizeNote (String.mk (l :: mods)) =
      some (String.mk [upperChar l,
        Char.ofNat (48 + (max 0 (min 7 (abcOctave l mods))).toNat)]) := by
  cases mods with
  | nil => simp [normalizeNote, hl, abcNormalize]
  | cons m ms =>
    cases ms with
    | nil =>
      have hmod : isModifierChar m = true := by simpa using hm
      have hd : isDigitChar m = false := modifier_not_digit m hmod
      simp [normalizeNote, hl, hd, abcNormalize, hm]
    | cons m2 ms2 =>
      simp [normalizeNote, hl, abcNormalize, hm]

/-- Claim C3: for every ABC-style token (a letter A-G in either case
followed by zero or more comma/apostrophe modifiers), normalization
yields the uppercase letter with octave base 5 for a lowercase input
letter and 4 for uppercase, shifted down once per comma and up once
per apostrophe, the final octave clamped to [0,7] — never erroring
and never going negative. -/
theorem c3_normalize_abc (l : Char) (mods : List Char)
    (hl : isNoteLetter l = true) (hm : mods.all isModifierChar = true) :
    normalizeNote (String.mk (l :: mods)) =
      some (String.mk [upperChar l,
        Char.ofNat (48 + (min 7 (max 0 ((if lowerChar l = l then (5 : Int) else 4)
          + mods.count apostChar - mods.count ','))).toNat)]) := by
  rw [normalizeNote_abc_eq l mods hl hm, abcOctave_count]
  have hswap : ∀ x : Int, max 0 (min 7 x) = min 7 (max 0 x) := by
    intro x
    rw [max_min_distrib_left]
    norm_num
  rw [hswap]

/-- Witness for C3: "C" followed by eight commas clamps to octave 0,
giving the note "C0". -/
theorem c3_normalize_abc_witness :
    normalizeNote (String.mk ('C' :: List.replicate 8 ',')) =
      some (String.mk ['C', Char.ofNat 48]) := by
  have h := c3_normalize_abc 'C' (List.replicate 8 ',') (by decide) (by decide)
  rw [h]
  decide

/-- A failed token normalization anywhere in the loop yields the empty
Sequence record, whatever had been accumulated. -/
theorem buildSeqGo_fail : ∀ (toks ns : List String) (ds : List Nat),
    (∃ t ∈ toks, normalizeNote t = none) → buildSeqGo toks ns ds = ⟨[], []⟩ := by
  intro toks
  induction toks with
  | nil =>
    rintro ns ds ⟨t, ht, -⟩
    simp at ht
  | cons tok rest ih =>
    rintro ns ds ⟨t, ht, hn⟩
    rcases List.mem_cons.mp ht with rfl | ht'
    · simp [buildSeqGo, hn]
    · cases hcase : normalizeNote tok with
      | none => simp [buildSeqGo, hcase]
      | some n =>
        simp only [buildSeqGo, hcase]
        exact ih _ _ ⟨t, ht', hn⟩

/-- The loop either discards the segment wholesale or extends the
accumulator by exactly one note per token. -/
theorem buildSeqGo_cases : ∀ (toks ns : List String) (ds : List Nat),
    buildSeqGo toks ns ds = ⟨[], []⟩ ∨
    (buildSeqGo toks ns ds).notes.length = ns.length + toks.length := by
  intro toks
  induction toks with
  | nil =>
    intro ns ds
    right
    simp [buildSeqGo]
  | cons tok rest ih =>
    intro ns ds
    cases hcase : normalizeNote tok with
    | none =>
      left
      simp [buildSeqGo, hcase]
    | some n =>
      simp only [buildSeqGo, hcase]
      rcases ih (ns ++ [n]) (ds ++ [noteToDegree (n.data.headD ' ')]) with h | h
      · exact Or.inl h
      · right
        rw [h]
        simp
        omega

/-- Every member of the parse output comes from a surviving segment,
is the Sequence the loop built from that segment's tokens, and passed
the final non-empty / positive-degrees filter. -/
theorem parseSequences_mem {input : String} {s : Sequence}
    (h : s ∈ parseSequences input) :
    (∃ seg ∈ parseSegments input, s = buildSeq (tokenizeNotes seg)) ∧
      0 < s.notes.length ∧ ∀ d ∈ s.degrees, 0 < d := by
  unfold parseSequences at h
  obtain ⟨hm, hf⟩ := List.mem_filter.mp h
  obtain ⟨seg, hseg, hbuild⟩ := List.mem_map.mp hm
  simp only [Bool.and_eq_true, decide_eq_true_eq, List.all_eq_true] at hf
  exact ⟨⟨seg, hseg, hbuild.symm⟩, hf.1, fun d hd => by
    simpa using hf.2 d hd⟩

/-- Claim C4: if any token of a segment fails normalization, the whole
segment is discarded (the loop returns the empty record, which the
final filter drops), and parse never emits a Sequence built from only
a subset of a segment's tokens — every emitted Sequence uses exactly
as many notes as its segment has tokens. -/
theorem c4_segment_atomicity :
    (∀ toks : List String, (∃ t ∈ toks, normalizeNote t = none) →
        buildSeq toks = ⟨[], []⟩) ∧
    (∀ (input : String) (s : Sequence), s ∈ parseSequences input →
        ∃ seg ∈ parseSegments input, s = buildSeq (tokenizeNotes seg) ∧
          s.notes.length = (tokenizeNotes seg).length ∧ s.notes ≠ []) := by
  constructor
  · intro toks h
    exact buildSeqGo_fail toks [] [] h
  · intro input s hs
    obtain ⟨⟨seg, hseg, hbuild⟩, hpos, -⟩ := parseSequences_mem hs
    refine ⟨seg, hseg, hbuild, ?_, ?_⟩
    · rcases buildSeqGo_cases (tokenizeNotes seg) [] [] with h | h
      · rw [hbuild] at hpos
        unfold buildSeq at hpos
        rw [h] at hpos
        simp at hpos
      · rw [hbuild]
        unfold buildSeq
        rw [h]
        simp
    · intro hnil
      rw [hnil] at hpos
      simp at hpos

/-- Witness for C4: the invalid token "H" discards its segment, and the
surviving segment of "CFGc" is emitted with all four of its tokens. -/
theorem c4_segment_atomicity_witness :
    buildSeq ["H"] = ⟨[], []⟩ ∧
    (∃ seg ∈ parseSegments "CFGc",
      (⟨["C4", "F4", "G4", "C5"], [1, 4, 5, 1]⟩ : Sequence)
          = buildSeq (tokenizeNotes seg) ∧
      (⟨["C4", "F4", "G4", "C5"], [1, 4, 5, 1]⟩ : Sequence).notes.length
          = (tokenizeNotes seg).length ∧
      (⟨["C4", "F4", "G4", "C5"], [1, 4, 5, 1]⟩ : Sequence).notes ≠ []) :=
  ⟨c4_segment_atomicity.1 ["H"] (by decide),
   c4_segment_atomicity.2 "CFGc" ⟨["C4", "F4", "G4", "C5"], [1, 4, 5, 1]⟩
     (by decide)⟩

/-- Every token the scanner produces is a note letter followed by
either exactly one digit or a run of modifier characters. -/
theorem tokenizeFuel_shape : ∀ (fuel : Nat) (cs t : List Char),
    t ∈ tokenizeFuel fuel cs →
    ∃ l rest, t = l :: rest ∧ isNoteLetter l = true ∧
      ((∃ d, rest = [d] ∧ isDigitChar d = true) ∨
        rest.all isModifierChar = true) := by
  intro fuel
  induction fuel with
  | zero =>
    intro cs t ht
    simp [tokenizeFuel] at ht
  | succ fuel ih =>
    intro cs t ht
    cases cs with
    | nil => simp [tokenizeFuel] at ht
    | cons c cs' =>
      by_cases hc : isNoteLetter c = true
      · cases cs' with
        | nil =>
          simp [tokenizeFuel, hc] at ht
          subst ht
          exact ⟨c, [], rfl, hc, Or.inr (by simp)⟩
        | cons d rest =>
          by_cases hd : isDigitChar d = true
          · simp only [tokenizeFuel, hc, if_true, hd, List.mem_cons] at ht
            rcases ht with rfl | ht'
            · exact ⟨c, [d], rfl, hc, Or.inl ⟨d, rfl, hd⟩⟩
            · exact ih _ _ ht'
          · simp only [tokenizeFuel, hc, if_true, hd, if_false,
              Bool.false_eq_true, List.mem_cons] at ht
            rcases ht with rfl | ht'
            · refine ⟨c, (d :: rest).takeWhile isModifierChar, rfl, hc,
                Or.inr ?_⟩
              exact List.all_eq_true.mpr
                (fun x hx => List.mem_takeWhile_imp hx)
            · exact ih _ _ ht'
      · simp only [tokenizeFuel, hc, Bool.false_eq_true, if_false] at ht
        exact ih _ _ ht

/-- Evaluation of normalizeNote on an explicit letter+digit token: the
letter is uppercased and the octave digit kept verbatim. -/
theorem normalizeNote_explicit (l d : Char) (hl : isNoteLetter l = true)
    (hd : isDigitChar d = true) :
    normalizeNote (String.mk [l, d]) = some (String.mk [upperChar l, d]) := by
  simp [normalizeNote, hl, hd]

/-- The degree table maps the uppercased form of every note letter into
[1,7]. -/
theorem noteToDegree_upper (l : Char) (hl : isNoteLetter l = true) :
    1 ≤ noteToDegree (upperChar l) ∧ noteToDegree (upperChar l) ≤ 7 := by
  have hmem : l ∈ noteLetters := by
    simpa [isNoteLetter] using hl
  fin_cases hmem <;> decide

/-- Every tokenizer output normalizes successfully, to a note whose
leading character is the uppercased token letter. -/
theorem tokenizeNotes_normalizes {input tok : String}
    (ht : tok ∈ tokenizeNotes input) :
    ∃ l n, isNoteLetter l = true ∧ normalizeNote tok = some n ∧
      n.data.headD ' ' = upperChar l := by
  unfold tokenizeNotes at ht
  obtain ⟨tl, htl, rfl⟩ := List.mem_map.mp ht
  obtain ⟨l, rest, rfl, hl, hshape⟩ := tokenizeFuel_shape _ _ _ htl
  rcases hshape with ⟨d, rfl, hd⟩ | hmods
  · exact ⟨l, _, hl, normalizeNote_explicit l d hl hd, rfl⟩
  · exact ⟨l, _, hl, normalizeNote_abc_eq l rest hl hmods, rfl⟩

/-- A normalization success on every token makes the segment loop keep
exactly one note per token. -/
theorem buildSeqGo_ok_length : ∀ (toks ns : List String) (ds : List Nat),
    (∀ t ∈ toks, normalizeNote t ≠ none) →
    (buildSeqGo toks ns ds).notes.length = ns.length + toks.length := by
  intro toks
  induction toks with
  | nil =>
    intro ns ds _
    simp [buildSeqGo]
  | cons tok rest ih =>
    intro ns ds hall
    cases hcase : normalizeNote tok with
    | none => exact absurd hcase (hall tok (List.mem_cons_self tok rest))
    | some n =>
      simp only [buildSeqGo, hcase]
      rw [ih _ _ (fun t ht => hall t (List.mem_cons_of_mem tok ht))]
      simp
      omega

/-- Claim C10: every token the tokenizer produces matches a shape the
normalizer accepts, so normalization never fails on tokenizer output
and its degree is always in [1,7] (the zero-degree fallback never
fires); consequently the discard branch of parseSequences is
unreachable — the built Sequence always keeps one note per token —
and a leading character that cannot start a token is silently skipped
by the scanner. -/
theorem c10_tokenizer_totality :
    (∀ (input tok : String), tok ∈ tokenizeNotes input →
        ∃ n, normalizeNote tok = some n ∧
          1 ≤ noteToDegree (n.data.headD ' ') ∧
          noteToDegree (n.data.headD ' ') ≤ 7) ∧
    (∀ input : String,
        (buildSeq (tokenizeNotes input)).notes.length
          = (tokenizeNotes input).length) ∧
    (∀ (c : Char) (cs : List Char), isNoteLetter c = false →
        isSpaceChar c = false →
        tokenizeNotes (String.mk (c :: cs)) = tokenizeNotes (String.mk cs)) := by
  refine ⟨?_, ?_, ?_⟩
  · intro input tok ht
    obtain ⟨l, n, hl, hn, hhead⟩ := tokenizeNotes_normalizes ht
    refine ⟨n, hn, ?_⟩
    rw [hhead]
    exact noteToDegree_upper l hl
  · intro input
    unfold buildSeq
    rw [buildSeqGo_ok_length _ [] [] ?_]
    · simp
    · intro t ht
      obtain ⟨l, n, -, hn, -⟩ := tokenizeNotes_normalizes ht
      simp [hn]
  · intro c cs hc hsp
    unfold tokenizeNotes
    have hstrip : (stripSpaces (String.mk (c :: cs))).data
        = c :: (stripSpaces (String.mk cs)).data := by
      simp [stripSpaces, hsp]
    rw [hstrip]
    simp only [List.length_cons, tokenizeFuel, hc, Bool.false_eq_true, if_false]

/-- Witness for C10: the token "C," of the input "C,EGc" normalizes to
a degree-1 note, every segment keeps all its tokens, and a leading
stray digit is skipped. -/
theorem c10_tokenizer_totality_witness :
    (∃ n, normalizeNote "C," = some n ∧
      1 ≤ noteToDegree (n.data.headD ' ') ∧
      noteToDegree (n.data.headD ' ') ≤ 7) ∧
    (buildSeq (tokenizeNotes "C,EGc")).notes.length
      = (tokenizeNotes "C,EGc").length ∧
    tokenizeNotes (String.mk ('5' :: "CFGc".data))
      = tokenizeNotes (String.mk "CFGc".data) :=
  ⟨c10_tokenizer_totality.1 "C,EGc" "C," (by decide),
   c10_tokenizer_totality.2.1 "C,EGc",
   c10_tokenizer_totality.2.2 '5' "CFGc".data (by decide) (by decide)⟩

/-- The octave digit of a canonical note: the numeric value of its
second character. -/
def octaveDigitVal (n : String) : Option Nat :=
  (n.data.get? 1).map (fun c => c.toNat - 48)

/-- An ABC-branch success pins down the modifier-run guard and the
produced note. -/
theorem abcNormalize_some {l : Char} {mods : List Char} {n : String}
    (h : abcNormalize l mods = some n) :
    mods.all isModifierChar = true ∧
    n = String.mk [upperChar l,
      Char.ofNat (48 + (max 0 (min 7 (abcOctave l mods))).toNat)] := by
  unfold abcNormalize at h
  by_cases hm : mods.all isModifierChar = true
  · rw [if_pos hm] at h
    exact ⟨hm, (Option.some.injEq _ _ ▸ h).symm⟩
  · rw [if_neg hm] at h
    cases h

/-- Any normalization success comes from the explicit branch (digit kept
verbatim) or the ABC branch (clamped octave). -/
theorem normalizeNote_some_cases {tok n : String}
    (h : normalizeNote tok = some n) :
    (∃ l d, isNoteLetter l = true ∧ isDigitChar d = true ∧
      n = String.mk [upperChar l, d]) ∨
    (∃ l mods, isNoteLetter l = true ∧ mods.all isModifierChar = true ∧
      n = String.mk [upperChar l,
        Char.ofNat (48 + (max 0 (min 7 (abcOctave l mods))).toNat)]) := by
  unfold normalizeNote at h
  split at h
  · cases h
  · split at h
    · split at h
      · split at h
        · rename_i x l hl rest d heq hd
          exact Or.inl ⟨l, d, hl, hd, (Option.some.inj h).symm⟩
        · rename_i x l hl rest d heq hd
          obtain ⟨hm, hn⟩ := abcNormalize_some h
          exact Or.inr ⟨l, [d], hl, hm, hn⟩
      · rename_i x1 l rest1 heq hl rest2 hmiss
        obtain ⟨hm, hn⟩ := abcNormalize_some h
        exact Or.inr ⟨l, rest1, hl, hm, hn⟩
    · cases h

/-- A digit character's numeric value is at most 9. -/
theorem digit_toNat_le (d : Char) (hd : isDigitChar d = true) :
    d.toNat - 48 ≤ 9 := by
  have hmem : d ∈ ['0', '1', '2', '3', '4', '5', '6', '7', '8', '9'] := by
    simpa [isDigitChar] using hd
  fin_cases hmem <;> decide

/-- Every note the segment loop accumulates is the normalization of one
of its tokens. -/
theorem buildSeqGo_notes_mem : ∀ (toks ns : List String) (ds : List Nat)
    {n : String}, n ∈ (buildSeqGo toks ns ds).notes →
    n ∈ ns ∨ ∃ t ∈ toks, normalizeNote t = some n := by
  intro toks
  induction toks with
  | nil =>
    intro ns ds n hn
    simp only [buildSeqGo] at hn
    exact Or.inl hn
  | cons tok rest ih =>
    intro ns ds n hn
    cases hcase : normalizeNote tok with
    | none =>
      rw [buildSeqGo, hcase] at hn
      simp at hn
    | some m =>
      rw [buildSeqGo, hcase] at hn
      rcases ih _ _ hn with hacc | ⟨t, ht, hnorm⟩
      · rcases List.mem_append.mp hacc with h | h
        · exact Or.inl h
        · refine Or.inr ⟨tok, List.mem_cons_self tok rest, ?_⟩
          rw [hcase, List.mem_singleton.mp h]
      · exact Or.inr ⟨t, List.mem_cons_of_mem tok ht, hnorm⟩

/-- Counterexample to claim C5 as stated: the input "C8" parses to a
Sequence whose note "C8" carries octave digit 8, outside [0,7] — the
explicit letter+digit branch does not clamp. -/
theorem c5_explicit_octave_counterexample :
    parseSequences "C8" = [⟨["C8"], [1]⟩] ∧
    octaveDigitVal "C8" = some 8 ∧ ¬ (8 : Nat) ≤ 7 := by decide

/-- Claim C5 amended: every note in every Sequence returned by parse
has an octave digit in [0,9]; notes from ABC-style tokens are clamped
to [0,7], but explicit letter+digit tokens keep the digit verbatim,
so parsed notes can carry octave 8 or 9. -/
theorem c5_octave_ranges :
    (∀ (input : String) (s : Sequence) (n : String),
        s ∈ parseSequences input → n ∈ s.notes →
        ∃ d, octaveDigitVal n = some d ∧ d ≤ 9) ∧
    (∀ (l : Char) (mods : List Char) (n : String),
        isNoteLetter l = true → mods.all isModifierChar = true →
        normalizeNote (String.mk (l :: mods)) = some n →
        ∃ d, octaveDigitVal n = some d ∧ d ≤ 7) := by
  have hclamp : ∀ x : Int, (max 0 (min 7 x)).toNat ≤ 7 := by
    intro x
    omega
  have habc : ∀ (a : Char) (v : Nat), v ≤ 7 →
      ∃ d, octaveDigitVal (String.mk [a, Char.ofNat (48 + v)]) = some d ∧
        d ≤ 7 := by
    intro a v hv
    refine ⟨(Char.ofNat (48 + v)).toNat - 48, rfl, ?_⟩
    interval_cases v <;> decide
  constructor
  · intro input s n hs hn
    obtain ⟨⟨seg, -, hbuild⟩, -, -⟩ := parseSequences_mem hs
    rw [hbuild] at hn
    unfold buildSeq at hn
    rcases buildSeqGo_notes_mem _ [] [] hn with hacc | ⟨t, -, hnorm⟩
    · simp at hacc
    · rcases normalizeNote_some_cases hnorm with
        ⟨l, d, -, hd, rfl⟩ | ⟨l, mods, -, -, rfl⟩
      · exact ⟨d.toNat - 48, rfl, digit_toNat_le d hd⟩
      · obtain ⟨v, hv, hv7⟩ :=
          habc (upperChar l) _ (hclamp (abcOctave l mods))
        exact ⟨v, hv, hv7.trans (by norm_num)⟩
  · intro l mods n hl hm hnorm
    rw [normalizeNote_abc_eq l mods hl hm] at hnorm
    have hn : n = String.mk [upperChar l,
        Char.ofNat (48 + (max 0 (min 7 (abcOctave l mods))).toNat)] :=
      (Option.some.inj hnorm).symm
    rw [hn]
    exact habc (upperChar l) _ (hclamp (abcOctave l mods))

/-- Witness for the amended C5: the parsed note "C4" of "CFGc" has
octave digit 4 ≤ 9, and the ABC token "C," normalizes to "C3" with
octave digit 3 ≤ 7. -/
theorem c5_octave_ranges_witness :
    (∃ d, octaveDigitVal "C4" = some d ∧ d ≤ 9) ∧
    (∃ d, octaveDigitVal "C3" = some d ∧ d ≤ 7) :=
  ⟨c5_octave_ranges.1 "CFGc" ⟨["C4", "F4", "G4", "C5"], [1, 4, 5, 1]⟩ "C4"
     (by decide) (by decide),
   c5_octave_ranges.2 'C' [','] "C3" (by decide) (by decide) (by decide)⟩

end EarTraining
